import Mathlib

/-!
Verification development for the bounded MPSC queue and channel facade of the
tachyonix crate (src/queue.rs and src/lib.rs).

The queue is shallowly embedded: machine words of width `W` are natural
numbers, with every wrapping operation taken modulo `2 ^ W`.  Atomic cells
become plain fields and each public operation becomes a state-transition
function; since `push`'s compare-and-swap can only fail under concurrent
interference, the sequential embedding lets it succeed, and the
`Greater`-stamp branch (a race with another producer, impossible
sequentially) is surfaced as an explicit `retry` result that leaves the
state unchanged.  Reads of uninitialised slot memory are modelled by
`Option`, and a buffer access out of bounds (a panic in the source) is the
explicit `oob` result.
-/

namespace Tachyonix

/-- Wrapping addition on a `W`-bit word (`usize::wrapping_add`). -/
def wadd (W a b : Nat) : Nat := (a + b) % 2 ^ W

/-- Wrapping subtraction on a `W`-bit word (`usize::wrapping_sub`). -/
def wsub (W a b : Nat) : Nat := (a + (2 ^ W - b % 2 ^ W)) % 2 ^ W

/-- Bounded search for the least exponent `k` (starting from the second
argument) with `n ≤ 2 ^ k`; structural recursion on fuel so that the kernel
can evaluate it. -/
def np2go (n : Nat) : Nat → Nat → Nat
  | 0, k => k
  | fuel + 1, k => if n ≤ 2 ^ k then k else np2go n fuel (k + 1)

/-- Exponent of the least power of two that is `≥ n`. -/
def np2exp (n : Nat) : Nat := np2go n n 0

/-- Model of Rust's `usize::next_power_of_two`: the smallest power of two
greater than or equal to `n` (with `0` mapped to `1`). -/
def next_power_of_two (n : Nat) : Nat := 2 ^ np2exp n

/-- A queue slot containing a value and an associated stamp
(`Slot<T>` in src/queue.rs).  The `MaybeUninit` value cell is an `Option`:
`none` is uninitialised memory. -/
structure Slot (T : Type) where
  stamp : Nat
  value : Option T
deriving DecidableEq, Repr

/-- The MPSC queue state (`Queue<T>` in src/queue.rs).  The enqueue
position, dequeue position and the slot stamps share the layout
`| sequence count | flag (1 bit) | buffer index |`. -/
structure Queue (T : Type) where
  enqueue_pos : Nat
  dequeue_pos : Nat
  buffer : List (Slot T)
  right_mask : Nat
  closed_channel_mask : Nat
deriving DecidableEq, Repr

/-- Increment a queue position, incrementing the sequence count as well if
the index wraps to 0 (`Queue::next_queue_pos`).  The source computes
`queue_pos + 1`, masks it with `right_mask` to extract the new index, and
on wrap returns `(queue_pos & !right_mask) + (right_mask + 1)`; all
arithmetic is on `W`-bit words. -/
def Queue.next_queue_pos (W : Nat) {T : Type} (q : Queue T) (queue_pos : Nat) : Nat :=
  let new_queue_pos := (queue_pos + 1) % 2 ^ W
  let new_index := new_queue_pos &&& q.right_mask
  if new_index < q.buffer.length then
    new_queue_pos
  else
    let sequence_increment := (q.right_mask + 1) % 2 ^ W
    let sequence_count := queue_pos &&& ((2 ^ W - 1) ^^^ q.right_mask)
    (sequence_count + sequence_increment) % 2 ^ W

/-- Error occurring when pushing into a queue is unsuccessful
(`PushError<T>` in src/queue.rs); both variants return the value. -/
inductive PushError (T : Type) where
  | Full (v : T)
  | Closed (v : T)
deriving DecidableEq, Repr

/-- Outcome of one sequential `Queue::push` call.  `retry` is the
`Greater` stamp branch (raced with another producer: impossible without
interference, the loop would reload and spin); `oob` is an out-of-bounds
buffer access (a panic in the source). -/
inductive PushRes (T : Type) where
  | ok
  | err (e : PushError T)
  | retry
  | oob
deriving DecidableEq, Repr

/-- `Queue::push` (src/queue.rs lines 100-154), sequential semantics: the
closed-flag check, the stamp comparison via `wrapping_sub` reinterpreted as
a signed word, and on the `Equal` branch a successful compare-and-swap
advancing `enqueue_pos` followed by the slot write and the stamp store of
`stamp.wrapping_add(1)`. -/
def Queue.push (W : Nat) {T : Type} (q : Queue T) (value : T) : Queue T × PushRes T :=
  let enqueue_pos := q.enqueue_pos
  if enqueue_pos &&& q.closed_channel_mask ≠ 0 then
    (q, .err (.Closed value))
  else
    match q.buffer[enqueue_pos &&& q.right_mask]? with
    | none => (q, .oob)
    | some slot =>
      let stamp := slot.stamp
      let stamp_delta := wsub W stamp enqueue_pos
      if stamp_delta = 0 then
        ({ q with
            enqueue_pos := q.next_queue_pos W enqueue_pos,
            buffer := q.buffer.set (enqueue_pos &&& q.right_mask)
              { stamp := wadd W stamp 1, value := some value } },
          .ok)
      else if 2 ^ (W - 1) ≤ stamp_delta then
        (q, .err (.Full value))
      else
        (q, .retry)

/-- Error occurring when popping from a queue is unsuccessful
(`PopError` in src/queue.rs). -/
inductive PopError where
  | Empty
  | Closed
deriving DecidableEq, Repr

/-- Outcome of `Queue::pop`.  `ok` carries the `MaybeUninit` read from the
slot (`none` would be a read of uninitialised memory); `oob` is an
out-of-bounds buffer access. -/
inductive PopRes (T : Type) where
  | ok (v : Option T)
  | err (e : PopError)
  | oob
deriving DecidableEq, Repr

/-- `Queue::pop` (src/queue.rs lines 161-199): if the stamp differs from
the dequeue position the slot is filled, the dequeue position advances, the
value is read out and the stamp is stored as `stamp.wrapping_add(right_mask)`;
otherwise the slot is empty and the result is `Closed` exactly when
`enqueue_pos == dequeue_pos | closed_channel_mask`, else `Empty`. -/
def Queue.pop (W : Nat) {T : Type} (q : Queue T) : Queue T × PopRes T :=
  let dequeue_pos := q.dequeue_pos
  match q.buffer[dequeue_pos &&& q.right_mask]? with
  | none => (q, .oob)
  | some slot =>
    let stamp := slot.stamp
    if dequeue_pos ≠ stamp then
      ({ q with
          dequeue_pos := q.next_queue_pos W dequeue_pos,
          buffer := q.buffer.set (dequeue_pos &&& q.right_mask)
            { slot with stamp := wadd W stamp q.right_mask } },
        .ok slot.value)
    else
      if q.enqueue_pos = dequeue_pos ||| q.closed_channel_mask then
        (q, .err .Closed)
      else
        (q, .err .Empty)

/-- `Queue::close` (src/queue.rs lines 202-210): OR the closed-channel flag
into the enqueue position. -/
def Queue.close {T : Type} (q : Queue T) : Queue T :=
  { q with enqueue_pos := q.enqueue_pos ||| q.closed_channel_mask }

/-- `Queue::is_closed` (src/queue.rs lines 216-226). -/
def Queue.is_closed {T : Type} (q : Queue T) : Bool :=
  q.enqueue_pos &&& q.closed_channel_mask != 0

/-- `Queue::new` (src/queue.rs lines 69-97).  The two capacity asserts
become `none` (a panic); the buffer is initialised with linearly increasing
stamps, `closed_channel_mask = capacity.next_power_of_two()` and
`right_mask = (closed_channel_mask << 1).wrapping_sub(1)` on `W`-bit
words. -/
def Queue.new (T : Type) (W capacity : Nat) : Option (Queue T) :=
  if capacity ≥ 1 ∧ capacity ≤ 1 <<< (W - 1) then
    let closed_channel_mask := next_power_of_two capacity
    let right_mask := wsub W ((closed_channel_mask <<< 1) % 2 ^ W) 1
    some {
      enqueue_pos := 0
      dequeue_pos := 0
      buffer := (List.range capacity).map (fun i => { stamp := i, value := none })
      right_mask := right_mask
      closed_channel_mask := closed_channel_mask }
  else
    none

/-- Shared channel data (`Inner<T>` in src/lib.rs).  The two notification
primitives are external to the sources (the diatomic-waker crate and the
absent event.rs); following the contracts of spec sections 4.2 and 4.3 we
record only how many times each has been notified. -/
structure Inner (T : Type) where
  queue : Queue T
  receiver_signal : Nat
  sender_signal : Nat
  sender_count : Nat
deriving DecidableEq, Repr

/-- `TrySendError<T>` of src/lib.rs. -/
inductive TrySendError (T : Type) where
  | Full (v : T)
  | Closed (v : T)
deriving DecidableEq, Repr

/-- Outcome of `Sender::try_send`, with the same model artifacts as
`PushRes`. -/
inductive TrySendRes (T : Type) where
  | ok
  | err (e : TrySendError T)
  | retry
  | oob
deriving DecidableEq, Repr

/-- `TryRecvError` of src/lib.rs. -/
inductive TryRecvError where
  | Empty
  | Closed
deriving DecidableEq, Repr

/-- Outcome of `Receiver::try_recv`. -/
inductive TryRecvRes (T : Type) where
  | ok (v : Option T)
  | err (e : TryRecvError)
  | oob
deriving DecidableEq, Repr

/-- `SendError<T>` of src/lib.rs (a tuple struct around the value). -/
structure SendError (T : Type) where
  v : T
deriving DecidableEq, Repr

/-- `Sender::try_send` (src/lib.rs lines 94-103): push, notify the
receiver on success, and map `PushError` to `TrySendError`. -/
def Sender.try_send (W : Nat) {T : Type} (s : Inner T) (message : T) :
    Inner T × TrySendRes T :=
  match Queue.push W s.queue message with
  | (q', .ok) =>
      ({ s with queue := q', receiver_signal := s.receiver_signal + 1 }, .ok)
  | (q', .err (.Full v)) => ({ s with queue := q' }, .err (.Full v))
  | (q', .err (.Closed v)) => ({ s with queue := q' }, .err (.Closed v))
  | (q', .retry) => ({ s with queue := q' }, .retry)
  | (q', .oob) => ({ s with queue := q' }, .oob)

/-- `Receiver::try_recv` (src/lib.rs lines 225-237): pop, notify one
sender on success, and map `PopError` to `TryRecvError`. -/
def Receiver.try_recv (W : Nat) {T : Type} (s : Inner T) :
    Inner T × TryRecvRes T :=
  match Queue.pop W s.queue with
  | (q', .ok v) =>
      ({ s with queue := q', sender_signal := s.sender_signal + 1 }, .ok v)
  | (q', .err .Empty) => ({ s with queue := q' }, .err .Empty)
  | (q', .err .Closed) => ({ s with queue := q' }, .err .Closed)
  | (q', .oob) => ({ s with queue := q' }, .oob)

/-- `Sender::is_closed` (src/lib.rs lines 159-161). -/
def Sender.is_closed {T : Type} (s : Inner T) : Bool :=
  s.queue.is_closed

/-- `Sender`'s `Drop` handler (src/lib.rs lines 181-207): decrement
`sender_count` (`fetch_sub` returns the previous value); if the previous
value was 1 and the queue is not already closed, close the queue and
notify the receiver. -/
def Sender.drop (W : Nat) {T : Type} (s : Inner T) : Inner T :=
  let prev := s.sender_count
  let s' := { s with sender_count := wsub W s.sender_count 1 }
  if prev = 1 ∧ s'.queue.is_closed = false then
    { s' with queue := s'.queue.close, receiver_signal := s'.receiver_signal + 1 }
  else
    s'

/-- `channel(capacity)` (src/lib.rs lines 358-367) together with
`Inner::new(capacity, 1)`: the one shared state behind the returned
`Sender`/`Receiver` pair, with `sender_count = 1`. -/
def channel (T : Type) (W capacity : Nat) : Option (Inner T) :=
  (Queue.new T W capacity).map fun q =>
    { queue := q, receiver_signal := 0, sender_signal := 0, sender_count := 1 }

/-- Modelled from the spec: the sender-side `Event::wait_until` driver of
`Sender::send` (src/lib.rs lines 107-140); event.rs is not among the
sources.  Per spec section 4.2, the predicate (the closure of
src/lib.rs lines 112-129, which pushes the threaded message and recycles
it on `Full`) is re-evaluated on every wake until it yields a non-null
result.  `env` is arbitrary interference by other threads between two
evaluations, `fuel` bounds the number of evaluations (`none` means the
future never completed), and the returned `Option T` is the residual
`message` slot of the closure. -/
def Sender.sendLoop (W : Nat) {T : Type} (env : Nat → Queue T → Queue T) :
    Nat → Nat → Queue T → T → Option (Queue T × Option T)
  | 0, _, _, _ => none
  | fuel + 1, k, q, m =>
    match Queue.push W q m with
    | (q', .ok) => some (q', none)
    | (q', .err (.Full m')) => Sender.sendLoop W env fuel (k + 1) (env k q') m'
    | (q', .err (.Closed m')) => some (q', some m')
    | (q', .retry) => Sender.sendLoop W env fuel (k + 1) (env k q') m
    | (_, .oob) => none

/-- Modelled from the spec: a completed `Sender::send` (src/lib.rs lines
107-140).  After the wait loop, a residual message means the channel was
closed and the message is returned inside `SendError`. -/
def Sender.send (W : Nat) {T : Type} (env : Nat → Queue T → Queue T)
    (fuel : Nat) (q : Queue T) (message : T) :
    Option (Queue T × Except (SendError T) Unit) :=
  (Sender.sendLoop W env fuel 0 q message).map fun r =>
    match r with
    | (q', some m) => (q', Except.error ⟨m⟩)
    | (q', none) => (q', Except.ok ())

/-- Queue states reachable from a fresh queue by any sequence of `push`,
`pop` and `close` operations. -/
inductive Reachable (W : Nat) {T : Type} : Queue T → Prop where
  | init : ∀ capacity q, Queue.new T W capacity = some q → Reachable W q
  | push : ∀ q (v : T), Reachable W q → Reachable W (Queue.push W q v).1
  | pop : ∀ q, Reachable W q → Reachable W (Queue.pop W q).1
  | close : ∀ q, Reachable W q → Reachable W (Queue.close q)

/-- The concrete `W`-bit queue position reached after `k` single-step
advances from a fresh queue of the given capacity: the sequence counter
`k / capacity` sits above the flag bit, the buffer index is
`k % capacity`. -/
def posOf (W cap k : Nat) : Nat :=
  (2 ^ (np2exp cap + 1) * (k / cap) + k % cap) % 2 ^ W

/-- The sequential-state invariant of the queue, parameterised by the
abstract state: `t` pops and `u` pushes have completed (`vs` lists the
`u - t` values pushed but not yet popped, oldest first), and `closed`
records the closed-channel flag.  Filled slots carry the stamp of their
push position plus one; empty slots carry the stamp of the next position
that will write them. -/
structure QueueInv (W cap t u : Nat) {T : Type} (vs : List T) (closed : Bool)
    (q : Queue T) : Prop where
  hW : 1 ≤ W
  hcap1 : 1 ≤ cap
  hcapW : cap ≤ 2 ^ (W - 1)
  hlen : q.buffer.length = cap
  hcm : q.closed_channel_mask = 2 ^ np2exp cap
  hrm : q.right_mask = 2 ^ (np2exp cap + 1) - 1
  htu : t ≤ u
  hfull : u ≤ t + cap
  hvs : vs.length = u - t
  hd : q.dequeue_pos = posOf W cap t
  he : q.enqueue_pos = posOf W cap u ||| (if closed then 2 ^ np2exp cap else 0)
  hfilled : ∀ j, t ≤ j → j < u → ∃ slot, q.buffer[j % cap]? = some slot ∧
    slot.stamp = (posOf W cap j + 1) % 2 ^ W ∧ slot.value = vs[j - t]?
  hempty : ∀ j, u ≤ j → j < t + cap → ∃ slot, q.buffer[j % cap]? = some slot ∧
    slot.stamp = posOf W cap j

/-- A fresh capacity-2 queue over 4-bit positions, used as a concrete
test state. -/
def exQ0 : Queue Nat :=
  { enqueue_pos := 0, dequeue_pos := 0,
    buffer := [{ stamp := 0, value := none }, { stamp := 1, value := none }],
    right_mask := 3, closed_channel_mask := 2 }

/-- `exQ0` after pushing the value 5. -/
def exQ1 : Queue Nat := (Queue.push 4 exQ0 5).1

/-- `exQ0` after closing. -/
def exQC : Queue Nat := Queue.close exQ0

/-- Channel state whose queue is the closed `exQC`. -/
def exInnerC : Inner Nat :=
  { queue := exQC, receiver_signal := 0, sender_signal := 0, sender_count := 1 }

/-- Channel state with the fresh queue `exQ0` and a single sender. -/
def exInner0 : Inner Nat :=
  { queue := exQ0, receiver_signal := 0, sender_signal := 0, sender_count := 1 }

/-- A fresh capacity-3 queue over 8-bit positions. -/
def exQ3 : Queue Nat :=
  { enqueue_pos := 0, dequeue_pos := 0,
    buffer := [{ stamp := 0, value := none }, { stamp := 1, value := none },
      { stamp := 2, value := none }],
    right_mask := 7, closed_channel_mask := 4 }

/-- The shared state produced by a capacity-3 channel over 8-bit
positions. -/
def exInner3 : Inner Nat :=
  { queue := exQ3, receiver_signal := 0, sender_signal := 0, sender_count := 1 }

/-! Bit-arithmetic toolkit. -/

theorem np2go_spec (n : Nat) : ∀ fuel k, n ≤ 2 ^ (k + fuel) →
    n ≤ 2 ^ np2go n fuel k ∧ k ≤ np2go n fuel k ∧
      ∀ j, k ≤ j → n ≤ 2 ^ j → np2go n fuel k ≤ j := by
  intro fuel
  induction fuel with
  | zero =>
    intro k hk
    exact ⟨hk, Nat.le_refl _, fun j hj _ => hj⟩
  | succ fuel ih =>
    intro k hk
    by_cases h : n ≤ 2 ^ k
    · have hg : np2go n (fuel + 1) k = k := by simp [np2go, h]
      rw [hg]
      exact ⟨h, Nat.le_refl _, fun j hj _ => hj⟩
    · have hg : np2go n (fuel + 1) k = np2go n fuel (k + 1) := by simp [np2go, h]
      rw [hg]
      have hk' : n ≤ 2 ^ (k + 1 + fuel) := by
        have : k + 1 + fuel = k + (fuel + 1) := by omega
        rw [this]; exact hk
      obtain ⟨h1, h2, h3⟩ := ih (k + 1) hk'
      refine ⟨h1, Nat.le_trans (Nat.le_succ k) h2, fun j hj hnj => ?_⟩
      have hjk : k + 1 ≤ j := by
        rcases Nat.eq_or_lt_of_le hj with rfl | hlt
        · exact absurd hnj h
        · omega
      exact h3 j hjk hnj

theorem le_np2 (n : Nat) : n ≤ 2 ^ np2exp n :=
  (np2go_spec n n 0 (by simpa using Nat.le_of_lt (Nat.lt_two_pow n))).1

theorem np2exp_le {n j : Nat} (h : n ≤ 2 ^ j) : np2exp n ≤ j :=
  (np2go_spec n n 0 (by simpa using Nat.le_of_lt (Nat.lt_two_pow n))).2.2
    j (Nat.zero_le j) h

theorem testBit_eq_false_of_mod {x m : Nat} (h : x % 2 ^ (m + 1) < 2 ^ m) :
    x.testBit m = false := by
  have h1 : (x % 2 ^ (m + 1)).testBit m = x.testBit m := by
    simp [Nat.testBit_mod_two_pow]
  rw [← h1]
  exact Nat.testBit_lt_two_pow h

theorem land_two_pow_eq_zero {x m : Nat} (h : x % 2 ^ (m + 1) < 2 ^ m) :
    x &&& 2 ^ m = 0 := by
  rw [Nat.and_two_pow, testBit_eq_false_of_mod h]
  simp

theorem lor_two_pow_eq_add {x m : Nat} (h : x % 2 ^ (m + 1) < 2 ^ m) :
    x ||| 2 ^ m = x + 2 ^ m := by
  have hx : 2 ^ (m + 1) * (x / 2 ^ (m + 1)) + x % 2 ^ (m + 1) = x :=
    Nat.div_add_mod x (2 ^ (m + 1))
  set a := x / 2 ^ (m + 1) with ha
  set b := x % 2 ^ (m + 1) with hb
  have hblt : b < 2 ^ (m + 1) := Nat.mod_lt _ (Nat.two_pow_pos (m + 1))
  have hsum : 2 ^ m + b < 2 ^ (m + 1) := by
    have : (2 : Nat) ^ (m + 1) = 2 ^ m + 2 ^ m := by rw [Nat.pow_succ]; omega
    omega
  calc x ||| 2 ^ m
      = (2 ^ (m + 1) * a + b) ||| 2 ^ m := by rw [hx]
    _ = (2 ^ (m + 1) * a ||| b) ||| 2 ^ m := by rw [Nat.mul_add_lt_is_or hblt]
    _ = 2 ^ (m + 1) * a ||| (2 ^ m ||| b) := by
        rw [Nat.or_assoc, Nat.or_comm b]
    _ = 2 ^ (m + 1) * a ||| (2 ^ m * 1 + b) := by
        rw [show (2:Nat) ^ m * 1 + b = 2 ^ m ||| b by
          rw [Nat.mul_add_lt_is_or h, Nat.mul_one]]
    _ = 2 ^ (m + 1) * a + (2 ^ m * 1 + b) := by
        rw [← Nat.mul_add_lt_is_or (by omega : 2 ^ m * 1 + b < 2 ^ (m + 1)) a]
    _ = x + 2 ^ m := by omega

theorem lor_land_self (x y : Nat) : (x ||| y) &&& y = y := by
  apply Nat.eq_of_testBit_eq
  intro i
  rw [Nat.testBit_and, Nat.testBit_or]
  cases y.testBit i <;> simp

theorem land_compl_mask {W n x : Nat} (hn : n ≤ W) (hx : x < 2 ^ W) :
    x &&& ((2 ^ W - 1) ^^^ (2 ^ n - 1)) = 2 ^ n * (x / 2 ^ n) := by
  apply Nat.eq_of_testBit_eq
  intro i
  rw [Nat.testBit_and, Nat.testBit_xor, Nat.testBit_two_pow_sub_one,
    Nat.testBit_two_pow_sub_one, Nat.testBit_mul_pow_two]
  have hdiv : (x / 2 ^ n).testBit (i - n) = x.testBit (n + (i - n)) := by
    rw [← Nat.shiftRight_eq_div_pow, Nat.testBit_shiftRight]
  rw [hdiv]
  rcases Nat.lt_or_ge i n with hi | hi
  · have h1 : decide (i < W) = true := by
      simp only [decide_eq_true_eq]; omega
    have h2 : decide (i < n) = true := by simp only [decide_eq_true_eq]; omega
    have h3 : decide (i ≥ n) = false := by
      simp only [ge_iff_le, decide_eq_false_iff_not]; omega
    rw [h1, h2, h3]
    simp
  · rcases Nat.lt_or_ge i W with hiW | hiW
    · have h1 : decide (i < W) = true := by simp only [decide_eq_true_eq]; omega
      have h2 : decide (i < n) = false := by
        simp only [decide_eq_false_iff_not]; omega
      have h3 : decide (i ≥ n) = true := by
        simp only [ge_iff_le, decide_eq_true_eq]; omega
      have h4 : n + (i - n) = i := by omega
      rw [h1, h2, h3, h4]
      simp
    · have h1 : decide (i < W) = false := by
        simp only [decide_eq_false_iff_not]; omega
      have h2 : decide (i < n) = false := by
        simp only [decide_eq_false_iff_not]; omega
      have h3 : x.testBit i = false := by
        apply Nat.testBit_lt_two_pow
        exact Nat.lt_of_lt_of_le hx (Nat.pow_le_pow_right (by omega) hiW)
      have h4 : x.testBit (n + (i - n)) = false := by
        apply Nat.testBit_lt_two_pow
        apply Nat.lt_of_lt_of_le hx
        apply Nat.pow_le_pow_right (by omega)
        omega
      rw [h1, h2, h4]
      simp [h3]

/-! Position arithmetic. -/

theorem wsub_zero_iff {W a b : Nat} : wsub W a b = 0 ↔ a % 2 ^ W = b % 2 ^ W := by
  unfold wsub
  have hP : 0 < 2 ^ W := Nat.two_pow_pos W
  set P := 2 ^ W with hPdef
  have hsplit : a + (P - b % P) = a % P + (P - b % P) + P * (a / P) := by
    have := Nat.div_add_mod a P
    omega
  rw [hsplit, Nat.add_mul_mod_self_left]
  set x := a % P with hx
  set y := b % P with hy
  have hxlt : x < P := Nat.mod_lt _ hP
  have hylt : y < P := Nat.mod_lt _ hP
  rcases Nat.lt_or_ge x y with hlt | hge
  · rw [Nat.mod_eq_of_lt (by omega : x + (P - y) < P)]
    omega
  · have h1 : x + (P - y) = P + (x - y) := by omega
    rw [h1, Nat.add_mod_left, Nat.mod_eq_of_lt (by omega : x - y < P)]
    omega

theorem wsub_self_eq_zero {W a : Nat} : wsub W a a = 0 :=
  wsub_zero_iff.mpr rfl

theorem self_ne_succ_mod {W p : Nat} (hW : 1 ≤ W) (hp : p < 2 ^ W) :
    p ≠ (p + 1) % 2 ^ W := by
  intro h
  have h1 : p % 2 ^ W = (p + 1) % 2 ^ W := by
    rw [Nat.mod_eq_of_lt hp]; exact h
  have h2 : (0 : Nat) % 2 ^ W = 1 % 2 ^ W := Nat.ModEq.add_left_cancel' p h1
  have h3 : 2 ≤ 2 ^ W := by
    calc 2 = 2 ^ 1 := rfl
    _ ≤ 2 ^ W := Nat.pow_le_pow_right (by omega) hW
  rw [Nat.zero_mod, Nat.mod_eq_of_lt (by omega)] at h2
  omega

theorem two_pow_sub_one_mod {W n : Nat} (h : n ≤ W) :
    (2 ^ W - 1) % 2 ^ n = 2 ^ n - 1 := by
  have hpow : (2 : Nat) ^ W = 2 ^ n * 2 ^ (W - n) := by
    rw [← Nat.pow_add]
    congr 1
    omega
  have hn1 : 1 ≤ (2 : Nat) ^ n := Nat.one_le_two_pow
  obtain ⟨d, hd⟩ : ∃ d, (2 : Nat) ^ (W - n) = d + 1 :=
    ⟨2 ^ (W - n) - 1, by have : 1 ≤ (2 : Nat) ^ (W - n) := Nat.one_le_two_pow; omega⟩
  have h1 : 2 ^ W - 1 = 2 ^ n * d + (2 ^ n - 1) := by
    rw [hpow, hd]
    have h2 : (2 : Nat) ^ n * (d + 1) = 2 ^ n * d + 2 ^ n := by ring
    omega
  rw [h1, Nat.mul_add_mod]
  exact Nat.mod_eq_of_lt (by omega)

theorem posOf_lt {W : Nat} (cap k : Nat) : posOf W cap k < 2 ^ W :=
  Nat.mod_lt _ (Nat.two_pow_pos W)

theorem np2_succ_le {W cap : Nat} (hW : 1 ≤ W) (hcapW : cap ≤ 2 ^ (W - 1)) :
    np2exp cap + 1 ≤ W := by
  have := np2exp_le hcapW
  omega

theorem posOf_mod {W cap : Nat} (hcap1 : 1 ≤ cap) (hMW : np2exp cap + 1 ≤ W)
    (k : Nat) : posOf W cap k % 2 ^ (np2exp cap + 1) = k % cap := by
  unfold posOf
  rw [Nat.mod_mod_of_dvd _ (Nat.pow_dvd_pow 2 hMW), Nat.mul_add_mod]
  apply Nat.mod_eq_of_lt
  calc k % cap < cap := Nat.mod_lt _ hcap1
  _ ≤ 2 ^ np2exp cap := le_np2 cap
  _ ≤ 2 ^ (np2exp cap + 1) := Nat.pow_le_pow_right (by omega) (Nat.le_succ _)

theorem posOf_land_rm {W cap : Nat} (hcap1 : 1 ≤ cap)
    (hMW : np2exp cap + 1 ≤ W) (k : Nat) :
    posOf W cap k &&& (2 ^ (np2exp cap + 1) - 1) = k % cap := by
  rw [Nat.and_pow_two_sub_one_eq_mod, posOf_mod hcap1 hMW k]

theorem posOf_land_cm {W cap : Nat} (hcap1 : 1 ≤ cap)
    (hMW : np2exp cap + 1 ≤ W) (k : Nat) :
    posOf W cap k &&& 2 ^ np2exp cap = 0 := by
  apply land_two_pow_eq_zero
  rw [posOf_mod hcap1 hMW k]
  exact Nat.lt_of_lt_of_le (Nat.mod_lt _ hcap1) (le_np2 cap)

theorem posOf_zero {W cap : Nat} : posOf W cap 0 = 0 := by
  unfold posOf
  simp

theorem posOf_add_cap {W cap : Nat} (hcap1 : 1 ≤ cap) (k : Nat) :
    posOf W cap (k + cap) = (posOf W cap k + 2 ^ (np2exp cap + 1)) % 2 ^ W := by
  unfold posOf
  rw [Nat.add_div_right _ hcap1, Nat.add_mod_right, Nat.mod_add_mod]
  congr 1
  ring

theorem next_queue_pos_posOf {W cap : Nat} {T : Type} (q : Queue T)
    (hW : 1 ≤ W) (hcap1 : 1 ≤ cap) (hcapW : cap ≤ 2 ^ (W - 1))
    (hlen : q.buffer.length = cap)
    (hrm : q.right_mask = 2 ^ (np2exp cap + 1) - 1) (k : Nat) :
    q.next_queue_pos W (posOf W cap k) = posOf W cap (k + 1) := by
  have hMW : np2exp cap + 1 ≤ W := np2_succ_le hW hcapW
  have hcapM : cap ≤ 2 ^ np2exp cap := le_np2 cap
  have hMM : (2 : Nat) ^ np2exp cap < 2 ^ (np2exp cap + 1) :=
    Nat.pow_lt_pow_right (by omega) (Nat.lt_succ_self _)
  have hSle : (2 : Nat) ^ (np2exp cap + 1) ≤ 2 ^ W :=
    Nat.pow_le_pow_right (by omega) hMW
  have hplt : posOf W cap k < 2 ^ W := posOf_lt cap k
  have hpmod : posOf W cap k % 2 ^ (np2exp cap + 1) = k % cap :=
    posOf_mod hcap1 hMW k
  have hkcap : k % cap < cap := Nat.mod_lt _ hcap1
  have hpne : posOf W cap k ≠ 2 ^ W - 1 := by
    intro h
    rw [h, two_pow_sub_one_mod hMW] at hpmod
    omega
  have hp1 : (posOf W cap k + 1) % 2 ^ W = posOf W cap k + 1 :=
    Nat.mod_eq_of_lt (by omega)
  have hidx : (posOf W cap k + 1) % 2 ^ (np2exp cap + 1) = k % cap + 1 := by
    rw [← Nat.mod_add_mod, hpmod]
    exact Nat.mod_eq_of_lt (by omega)
  simp only [Queue.next_queue_pos]
  rw [hrm, hlen, hp1, Nat.and_pow_two_sub_one_eq_mod, hidx]
  rcases Nat.lt_or_ge (k % cap + 1) cap with hcase | hcase
  · rw [if_pos hcase]
    have hdm : k + 1 = cap * (k / cap) + (k % cap + 1) := by
      have := Nat.div_add_mod k cap
      omega
    have hdiv : (k + 1) / cap = k / cap := by
      rw [hdm, Nat.mul_add_div (by omega), Nat.div_eq_of_lt hcase, Nat.add_zero]
    have hmod2 : (k + 1) % cap = k % cap + 1 := by
      rw [hdm, Nat.mul_add_mod]
      exact Nat.mod_eq_of_lt hcase
    have hnext : posOf W cap (k + 1) = (posOf W cap k + 1) % 2 ^ W := by
      unfold posOf
      rw [hdiv, hmod2, Nat.mod_add_mod]
      congr 1
    rw [hnext, hp1]
  · rw [if_neg (by omega)]
    rw [land_compl_mask hMW hplt]
    rw [show (2 : Nat) ^ (np2exp cap + 1) - 1 + 1 = 2 ^ (np2exp cap + 1) from by
      have : 1 ≤ (2 : Nat) ^ (np2exp cap + 1) := Nat.one_le_two_pow
      omega]
    have hdm : k + 1 = cap * (k / cap + 1) := by
      have hmul : cap * (k / cap + 1) = cap * (k / cap) + cap := by ring
      have := Nat.div_add_mod k cap
      omega
    have hdiv : (k + 1) / cap = k / cap + 1 := by
      rw [hdm, Nat.mul_div_cancel_left _ (by omega : 0 < cap)]
    have hmod2 : (k + 1) % cap = 0 := by
      rw [hdm]
      exact Nat.mul_mod_right _ _
    have hXp : posOf W cap (k + 1) =
        (2 ^ (np2exp cap + 1) * (k / cap) + 2 ^ (np2exp cap + 1)) % 2 ^ W := by
      unfold posOf
      rw [hdiv, hmod2]
      congr 1
    have hAp : 2 ^ (np2exp cap + 1) * (posOf W cap k / 2 ^ (np2exp cap + 1)) =
        posOf W cap k - k % cap := by
      have h1 := Nat.div_add_mod (posOf W cap k) (2 ^ (np2exp cap + 1))
      rw [hpmod] at h1
      omega
    have hcong : (posOf W cap k - k % cap) % 2 ^ W =
        (2 ^ (np2exp cap + 1) * (k / cap)) % 2 ^ W := by
      have hα : posOf W cap k % 2 ^ W =
          (2 ^ (np2exp cap + 1) * (k / cap) + k % cap) % 2 ^ W := by
        unfold posOf
        rw [Nat.mod_mod_of_dvd _ (Nat.dvd_refl _)]
      have hβ : posOf W cap k - k % cap + k % cap = posOf W cap k := by
        have hle : k % cap ≤ posOf W cap k := by
          calc k % cap = posOf W cap k % 2 ^ (np2exp cap + 1) := hpmod.symm
          _ ≤ posOf W cap k := Nat.mod_le _ _
        omega
      apply Nat.ModEq.add_right_cancel' (k % cap)
      show (posOf W cap k - k % cap + k % cap) % 2 ^ W =
        (2 ^ (np2exp cap + 1) * (k / cap) + k % cap) % 2 ^ W
      rw [hβ]
      exact hα
    calc (2 ^ (np2exp cap + 1) * (posOf W cap k / 2 ^ (np2exp cap + 1)) +
            2 ^ (np2exp cap + 1) % 2 ^ W) % 2 ^ W
        = (posOf W cap k - k % cap + 2 ^ (np2exp cap + 1) % 2 ^ W) % 2 ^ W := by
          rw [hAp]
      _ = (posOf W cap k - k % cap + 2 ^ (np2exp cap + 1)) % 2 ^ W := by
          rw [Nat.add_mod_mod]
      _ = ((posOf W cap k - k % cap) % 2 ^ W + 2 ^ (np2exp cap + 1)) % 2 ^ W := by
          rw [Nat.mod_add_mod]
      _ = (2 ^ (np2exp cap + 1) * (k / cap) % 2 ^ W + 2 ^ (np2exp cap + 1)) % 2 ^ W := by
          rw [hcong]
      _ = (2 ^ (np2exp cap + 1) * (k / cap) + 2 ^ (np2exp cap + 1)) % 2 ^ W := by
          rw [Nat.mod_add_mod]
      _ = posOf W cap (k + 1) := hXp.symm

theorem mod_window_inj {cap t a b : Nat} (hcap1 : 1 ≤ cap)
    (ha1 : t ≤ a) (ha2 : a < t + cap) (hb1 : t ≤ b) (hb2 : b < t + cap)
    (h : a % cap = b % cap) : a = b := by
  rcases Nat.le_total a b with hle | hle
  · have hdvd : cap ∣ b - a := (Nat.modEq_iff_dvd' hle).mp h
    have : b - a = 0 := by
      rcases Nat.eq_zero_or_pos (b - a) with h0 | h0
      · exact h0
      · exact absurd (Nat.le_of_dvd h0 hdvd) (by omega)
    omega
  · have hdvd : cap ∣ a - b := (Nat.modEq_iff_dvd' hle).mp h.symm
    have : a - b = 0 := by
      rcases Nat.eq_zero_or_pos (a - b) with h0 | h0
      · exact h0
      · exact absurd (Nat.le_of_dvd h0 hdvd) (by omega)
    omega

/-! Unfolding the branches of push and pop. -/

theorem push_eq_of_get {W : Nat} {T : Type} {q : Queue T} {v : T} {slot : Slot T}
    (hflag : q.enqueue_pos &&& q.closed_channel_mask = 0)
    (hget : q.buffer[q.enqueue_pos &&& q.right_mask]? = some slot) :
    Queue.push W q v =
      if wsub W slot.stamp q.enqueue_pos = 0 then
        ({ q with
            enqueue_pos := q.next_queue_pos W q.enqueue_pos,
            buffer := q.buffer.set (q.enqueue_pos &&& q.right_mask)
              { stamp := wadd W slot.stamp 1, value := some v } },
          .ok)
      else if 2 ^ (W - 1) ≤ wsub W slot.stamp q.enqueue_pos then
        (q, .err (.Full v))
      else
        (q, .retry) := by
  simp only [Queue.push]
  rw [if_neg (by rw [hflag]; exact fun hcon => hcon rfl)]
  rw [hget]

theorem push_closed_eq {W : Nat} {T : Type} {q : Queue T} {v : T}
    (hflag : q.enqueue_pos &&& q.closed_channel_mask ≠ 0) :
    Queue.push W q v = (q, .err (.Closed v)) := by
  simp only [Queue.push]
  rw [if_pos hflag]

theorem pop_eq_of_get {W : Nat} {T : Type} {q : Queue T} {slot : Slot T}
    (hget : q.buffer[q.dequeue_pos &&& q.right_mask]? = some slot) :
    Queue.pop W q =
      if q.dequeue_pos ≠ slot.stamp then
        ({ q with
            dequeue_pos := q.next_queue_pos W q.dequeue_pos,
            buffer := q.buffer.set (q.dequeue_pos &&& q.right_mask)
              { slot with stamp := wadd W slot.stamp q.right_mask } },
          .ok slot.value)
      else if q.enqueue_pos = q.dequeue_pos ||| q.closed_channel_mask then
        (q, .err .Closed)
      else
        (q, .err .Empty) := by
  simp only [Queue.pop]
  rw [hget]

/-! Establishing and preserving the invariant. -/

theorem rm_eq {W cap : Nat} (hW : 1 ≤ W) (hcapW : cap ≤ 2 ^ (W - 1)) :
    wsub W ((next_power_of_two cap <<< 1) % 2 ^ W) 1 = 2 ^ (np2exp cap + 1) - 1 := by
  have hMW : np2exp cap + 1 ≤ W := np2_succ_le hW hcapW
  have h2W : 2 ≤ 2 ^ W := by
    calc 2 = 2 ^ 1 := rfl
    _ ≤ 2 ^ W := Nat.pow_le_pow_right (by omega) hW
  have hshl : next_power_of_two cap <<< 1 = 2 ^ (np2exp cap + 1) := by
    rw [next_power_of_two, Nat.shiftLeft_eq]
    ring
  rw [hshl]
  unfold wsub
  rw [Nat.mod_eq_of_lt (show (1:Nat) < 2 ^ W by omega)]
  rcases Nat.lt_or_ge (np2exp cap + 1) W with hlt | hge
  · have hSlt : (2:Nat) ^ (np2exp cap + 1) < 2 ^ W :=
      Nat.pow_lt_pow_right (by omega) hlt
    have hS1 : 1 ≤ (2:Nat) ^ (np2exp cap + 1) := Nat.one_le_two_pow
    rw [Nat.mod_eq_of_lt hSlt]
    rw [show (2:Nat) ^ (np2exp cap + 1) + (2 ^ W - 1) =
      (2 ^ (np2exp cap + 1) - 1) + 2 ^ W from by omega]
    rw [Nat.add_mod_right]
    exact Nat.mod_eq_of_lt (by omega)
  · have hWe : np2exp cap + 1 = W := by omega
    rw [hWe, Nat.mod_self, Nat.zero_add]
    exact Nat.mod_eq_of_lt (by omega)

theorem inv_new {W cap : Nat} {T : Type} {q : Queue T} (hW : 1 ≤ W)
    (hnew : Queue.new T W cap = some q) :
    QueueInv W cap 0 0 ([] : List T) false q := by
  unfold Queue.new at hnew
  split at hnew
  case isFalse => exact absurd hnew (by simp)
  case isTrue hcond =>
    obtain ⟨hcap1, hcapW⟩ := hcond
    have hcapW2 : cap ≤ 2 ^ (W - 1) := by
      rw [Nat.shiftLeft_eq, Nat.one_mul] at hcapW
      exact hcapW
    rw [Option.some.injEq] at hnew
    subst hnew
    have hWlt : (2:Nat) ^ (W - 1) < 2 ^ W :=
      Nat.pow_lt_pow_right (by omega) (by omega)
    constructor
    case hW => exact hW
    case hcap1 => exact hcap1
    case hcapW => exact hcapW2
    case hlen => simp
    case hcm => rfl
    case hrm => exact rm_eq hW hcapW2
    case htu => exact Nat.le_refl 0
    case hfull => omega
    case hvs => rfl
    case hd => exact posOf_zero.symm
    case he =>
      rw [posOf_zero]
      simp
    case hfilled =>
      intro j hj1 hj2
      omega
    case hempty =>
      intro j hj1 hj2
      rw [Nat.zero_add] at hj2
      have hjcap : j % cap = j := Nat.mod_eq_of_lt hj2
      refine ⟨{ stamp := j, value := none }, ?_, ?_⟩
      · show (List.map (fun i => ({ stamp := i, value := none } : Slot T)) (List.range cap))[j % cap]? = _
        rw [hjcap, List.getElem?_map, List.getElem?_range hj2]
        rfl
      · show (j : Nat) = posOf W cap j
        unfold posOf
        rw [Nat.div_eq_of_lt hj2, Nat.mod_eq_of_lt hj2, Nat.mul_zero, Nat.zero_add]
        exact (Nat.mod_eq_of_lt (by omega)).symm

theorem inv_close {W cap t u : Nat} {T : Type} {vs : List T} {closed : Bool}
    {q : Queue T} (h : QueueInv W cap t u vs closed q) :
    QueueInv W cap t u vs true q.close := by
  obtain ⟨hW, hcap1, hcapW, hlen, hcm, hrm, htu, hfull, hvs, hd, he, hfilled, hempty⟩ := h
  refine ⟨hW, hcap1, hcapW, hlen, hcm, hrm, htu, hfull, hvs, hd, ?_, hfilled, hempty⟩
  show q.enqueue_pos ||| q.closed_channel_mask = _
  rw [he, hcm]
  cases closed with
  | true => rw [if_pos rfl, Nat.or_assoc, Nat.or_self]
  | false =>
    rw [if_neg (by simp), if_pos rfl, Nat.or_zero]

theorem inv_push_closed {W cap t u : Nat} {T : Type} {vs : List T} {q : Queue T}
    (h : QueueInv W cap t u vs true q) (v : T) :
    Queue.push W q v = (q, .err (.Closed v)) := by
  apply push_closed_eq
  rw [h.he, h.hcm, if_pos rfl, lor_land_self]
  have := Nat.two_pow_pos (np2exp cap)
  omega

theorem enqueue_open {W cap t u : Nat} {T : Type} {vs : List T} {q : Queue T}
    (h : QueueInv W cap t u vs false q) :
    q.enqueue_pos = posOf W cap u := by
  rw [h.he, if_neg (by simp), Nat.or_zero]

theorem flag_open {W cap t u : Nat} {T : Type} {vs : List T} {q : Queue T}
    (h : QueueInv W cap t u vs false q) :
    q.enqueue_pos &&& q.closed_channel_mask = 0 := by
  rw [enqueue_open h, h.hcm]
  exact posOf_land_cm h.hcap1 (np2_succ_le h.hW h.hcapW) u

theorem inv_push_ok {W cap t u : Nat} {T : Type} {vs : List T} {q : Queue T}
    (h : QueueInv W cap t u vs false q) (v : T) (hu : u < t + cap) :
    (Queue.push W q v).2 = .ok ∧
    QueueInv W cap t (u + 1) (vs ++ [v]) false (Queue.push W q v).1 := by
  obtain ⟨hW, hcap1, hcapW, hlen, hcm, hrm, htu, hfull, hvs, hd, he, hfilled, hempty⟩ := h
  have h' : QueueInv W cap t u vs false q :=
    ⟨hW, hcap1, hcapW, hlen, hcm, hrm, htu, hfull, hvs, hd, he, hfilled, hempty⟩
  have hMW : np2exp cap + 1 ≤ W := np2_succ_le hW hcapW
  have he' : q.enqueue_pos = posOf W cap u := enqueue_open h'
  have hidx : q.enqueue_pos &&& q.right_mask = u % cap := by
    rw [he', hrm]
    exact posOf_land_rm hcap1 hMW u
  obtain ⟨slot, hget, hstamp⟩ := hempty u (Nat.le_refl u) hu
  have hget' : q.buffer[q.enqueue_pos &&& q.right_mask]? = some slot := by
    rw [hidx]
    exact hget
  have hpush := push_eq_of_get (W := W) (v := v) (flag_open h') hget'
  rw [hidx, hstamp, he'] at hpush
  rw [next_queue_pos_posOf q hW hcap1 hcapW hlen hrm u] at hpush
  rw [if_pos wsub_self_eq_zero] at hpush
  rw [hpush]
  refine ⟨rfl, ?_⟩
  have hulen : u % cap < q.buffer.length := by
    rw [hlen]
    exact Nat.mod_lt _ hcap1
  refine ⟨hW, hcap1, hcapW, ?_, hcm, hrm, by omega, by omega, ?_, hd, ?_, ?_, ?_⟩
  · show (q.buffer.set _ _).length = cap
    rw [List.length_set, hlen]
  · show (vs ++ [v]).length = u + 1 - t
    rw [List.length_append, hvs]
    simp
    omega
  · show posOf W cap (u + 1) = posOf W cap (u + 1) ||| _
    rw [if_neg (by simp), Nat.or_zero]
  · -- filled slots
    intro j hj1 hj2
    rcases Nat.lt_or_ge j u with hj | hj
    · obtain ⟨slot', hget2, hstamp2, hval2⟩ := hfilled j hj1 hj
      have hne : u % cap ≠ j % cap := by
        intro heq
        have : u = j := mod_window_inj hcap1 htu (by omega) hj1 (by omega) heq
        omega
      refine ⟨slot', ?_, hstamp2, ?_⟩
      · show (q.buffer.set _ _)[j % cap]? = some slot'
        rw [List.getElem?_set_ne hne]
        exact hget2
      · rw [hval2]
        exact (List.getElem?_append_left (by omega)).symm
    · have hju : j = u := by omega
      subst hju
      refine ⟨{ stamp := wadd W (posOf W cap j) 1, value := some v }, ?_, ?_, ?_⟩
      · show (q.buffer.set _ _)[j % cap]? = _
        rw [List.getElem?_set_self hulen]
      · show wadd W (posOf W cap j) 1 = (posOf W cap j + 1) % 2 ^ W
        rfl
      · show some v = (vs ++ [v])[j - t]?
        rw [show j - t = vs.length from by omega]
        exact (List.getElem?_concat_length vs v).symm
  · -- empty slots
    intro j hj1 hj2
    obtain ⟨slot', hget2, hstamp2⟩ := hempty j (by omega) hj2
    have hne : u % cap ≠ j % cap := by
      intro heq
      have : u = j := mod_window_inj hcap1 htu (by omega) (by omega) (by omega) heq
      omega
    refine ⟨slot', ?_, hstamp2⟩
    show (q.buffer.set _ _)[j % cap]? = some slot'
    rw [List.getElem?_set_ne hne]
    exact hget2

theorem inv_push_full {W cap t u : Nat} {T : Type} {vs : List T} {q : Queue T}
    (h : QueueInv W cap t u vs false q) (v : T) (hu : u = t + cap) :
    (Queue.push W q v).1 = q ∧
      ((Queue.push W q v).2 = .err (.Full v) ∨ (Queue.push W q v).2 = .retry) := by
  obtain ⟨hW, hcap1, hcapW, hlen, hcm, hrm, htu, hfull, hvs, hd, he, hfilled, hempty⟩ := h
  have h' : QueueInv W cap t u vs false q :=
    ⟨hW, hcap1, hcapW, hlen, hcm, hrm, htu, hfull, hvs, hd, he, hfilled, hempty⟩
  have hMW : np2exp cap + 1 ≤ W := np2_succ_le hW hcapW
  have hSle : (2:Nat) ^ (np2exp cap + 1) ≤ 2 ^ W :=
    Nat.pow_le_pow_right (by omega) hMW
  have hS2 : 2 ≤ (2:Nat) ^ (np2exp cap + 1) := by
    calc 2 = 2 ^ 1 := rfl
    _ ≤ 2 ^ (np2exp cap + 1) := Nat.pow_le_pow_right (by omega) (by omega)
  have h2W : 2 ≤ 2 ^ W := by
    calc 2 = 2 ^ 1 := rfl
    _ ≤ 2 ^ W := Nat.pow_le_pow_right (by omega) hW
  have he' : q.enqueue_pos = posOf W cap u := enqueue_open h'
  have hidx : q.enqueue_pos &&& q.right_mask = t % cap := by
    rw [he', hrm, posOf_land_rm hcap1 hMW u, hu, Nat.add_mod_right]
  have htlt : t < u := by omega
  obtain ⟨slot, hget, hstamp, _⟩ := hfilled t (Nat.le_refl t) htlt
  have hget' : q.buffer[q.enqueue_pos &&& q.right_mask]? = some slot := by
    rw [hidx]
    exact hget
  have hpush := push_eq_of_get (W := W) (v := v) (flag_open h') hget'
  have hdelta : wsub W slot.stamp q.enqueue_pos ≠ 0 := by
    intro h0
    rw [wsub_zero_iff] at h0
    rw [hstamp, he', hu, posOf_add_cap hcap1 t, Nat.mod_mod_of_dvd _ (Nat.dvd_refl _),
      Nat.mod_mod_of_dvd _ (Nat.dvd_refl _)] at h0
    have h1 : 1 % 2 ^ W = 2 ^ (np2exp cap + 1) % 2 ^ W :=
      Nat.ModEq.add_left_cancel' (posOf W cap t) h0
    rw [Nat.mod_eq_of_lt (by omega : (1:Nat) < 2 ^ W)] at h1
    rcases Nat.lt_or_ge (2 ^ (np2exp cap + 1)) (2 ^ W) with hc | hc
    · rw [Nat.mod_eq_of_lt hc] at h1
      omega
    · have hceq : (2:Nat) ^ (np2exp cap + 1) = 2 ^ W := by omega
      rw [hceq, Nat.mod_self] at h1
      omega
  rw [hpush, if_neg hdelta]
  refine ⟨by split <;> rfl, ?_⟩
  split
  · left; rfl
  · right; rfl

theorem stamp_advance {W cap t : Nat} (hcap1 : 1 ≤ cap) :
    wadd W ((posOf W cap t + 1) % 2 ^ W) (2 ^ (np2exp cap + 1) - 1) =
      posOf W cap (t + cap) := by
  unfold wadd
  rw [Nat.mod_add_mod, posOf_add_cap hcap1 t]
  congr 1
  have : 1 ≤ (2:Nat) ^ (np2exp cap + 1) := Nat.one_le_two_pow
  omega

theorem inv_pop_ok {W cap t u : Nat} {T : Type} {vs : List T} {closed : Bool}
    {q : Queue T} (h : QueueInv W cap t u vs closed q) (ht : t < u) :
    (Queue.pop W q).2 = .ok vs[0]? ∧ vs[0]?.isSome = true ∧
    QueueInv W cap (t + 1) u vs.tail closed (Queue.pop W q).1 := by
  obtain ⟨hW, hcap1, hcapW, hlen, hcm, hrm, htu, hfull, hvs, hd, he, hfilled, hempty⟩ := h
  have hMW : np2exp cap + 1 ≤ W := np2_succ_le hW hcapW
  have hidx : q.dequeue_pos &&& q.right_mask = t % cap := by
    rw [hd, hrm]
    exact posOf_land_rm hcap1 hMW t
  obtain ⟨slot, hget, hstamp, hval⟩ := hfilled t (Nat.le_refl t) ht
  have hget' : q.buffer[q.dequeue_pos &&& q.right_mask]? = some slot := by
    rw [hidx]
    exact hget
  have hpop := pop_eq_of_get (W := W) hget'
  have hne : q.dequeue_pos ≠ slot.stamp := by
    rw [hd, hstamp]
    exact self_ne_succ_mod hW (posOf_lt cap t)
  rw [if_pos hne, hidx, hstamp, hrm, hd] at hpop
  rw [next_queue_pos_posOf q hW hcap1 hcapW hlen hrm t] at hpop
  rw [stamp_advance hcap1] at hpop
  rw [Nat.sub_self] at hval
  have hvs0 : vs[0]?.isSome = true := by
    cases vs with
    | nil =>
      rw [List.length_nil] at hvs
      omega
    | cons a l => simp
  rw [hpop]
  refine ⟨by rw [hval], hvs0, ?_⟩
  have htlen : t % cap < q.buffer.length := by
    rw [hlen]
    exact Nat.mod_lt _ hcap1
  refine ⟨hW, hcap1, hcapW, ?_, hcm, rfl, by omega, by omega, ?_, rfl, he, ?_, ?_⟩
  · show (q.buffer.set _ _).length = cap
    rw [List.length_set, hlen]
  · show vs.tail.length = u - (t + 1)
    rw [List.length_tail, hvs]
    omega
  · -- filled slots
    intro j hj1 hj2
    obtain ⟨slot', hget2, hstamp2, hval2⟩ := hfilled j (by omega) hj2
    have hne2 : t % cap ≠ j % cap := by
      intro heq
      have : t = j := mod_window_inj hcap1 (Nat.le_refl t) (by omega) (by omega)
        (by omega) heq
      omega
    refine ⟨slot', ?_, hstamp2, ?_⟩
    · show (q.buffer.set _ _)[j % cap]? = some slot'
      rw [List.getElem?_set_ne hne2]
      exact hget2
    · rw [hval2, List.getElem?_tail]
      congr 1
      omega
  · -- empty slots
    intro j hj1 hj2
    rcases Nat.lt_or_ge j (t + cap) with hj | hj
    · obtain ⟨slot', hget2, hstamp2⟩ := hempty j hj1 hj
      have hne2 : t % cap ≠ j % cap := by
        intro heq
        have : t = j := mod_window_inj hcap1 (Nat.le_refl t) (by omega) (by omega)
          (by omega) heq
        omega
      refine ⟨slot', ?_, hstamp2⟩
      show (q.buffer.set _ _)[j % cap]? = some slot'
      rw [List.getElem?_set_ne hne2]
      exact hget2
    · have hjeq : j = t + cap := by omega
      subst hjeq
      refine ⟨{ slot with stamp := posOf W cap (t + cap) }, ?_, rfl⟩
      show (q.buffer.set _ _)[(t + cap) % cap]? = _
      rw [Nat.add_mod_right]
      rw [List.getElem?_set_self htlen]

theorem inv_pop_empty {W cap t : Nat} {T : Type} {vs : List T} {closed : Bool}
    {q : Queue T} (h : QueueInv W cap t t vs closed q) :
    Queue.pop W q = (q, .err (if closed then .Closed else .Empty)) := by
  obtain ⟨hW, hcap1, hcapW, hlen, hcm, hrm, htu, hfull, hvs, hd, he, hfilled, hempty⟩ := h
  have hMW : np2exp cap + 1 ≤ W := np2_succ_le hW hcapW
  have hidx : q.dequeue_pos &&& q.right_mask = t % cap := by
    rw [hd, hrm]
    exact posOf_land_rm hcap1 hMW t
  obtain ⟨slot, hget, hstamp⟩ := hempty t (Nat.le_refl t) (by omega)
  have hget' : q.buffer[q.dequeue_pos &&& q.right_mask]? = some slot := by
    rw [hidx]
    exact hget
  have hpop := pop_eq_of_get (W := W) hget'
  rw [if_neg (by rw [hd, hstamp]; exact fun hc => hc rfl)] at hpop
  have hmod : posOf W cap t % 2 ^ (np2exp cap + 1) < 2 ^ np2exp cap := by
    rw [posOf_mod hcap1 hMW t]
    exact Nat.lt_of_lt_of_le (Nat.mod_lt _ hcap1) (le_np2 cap)
  have hO : posOf W cap t ||| 2 ^ np2exp cap = posOf W cap t + 2 ^ np2exp cap :=
    lor_two_pow_eq_add hmod
  have hcm0 : 0 < 2 ^ np2exp cap := Nat.two_pow_pos _
  rw [hpop]
  cases closed with
  | true =>
    rw [if_pos (by rw [he, hd, hcm, if_pos rfl])]
    rfl
  | false =>
    rw [if_neg ?_]
    · rfl
    · rw [he, hd, hcm, if_neg (by simp), Nat.or_zero, hO]
      omega

theorem inv_push_any {W cap t u : Nat} {T : Type} {vs : List T} {closed : Bool}
    {q : Queue T} (h : QueueInv W cap t u vs closed q) (v : T) :
    ∃ u' vs', QueueInv W cap t u' vs' closed (Queue.push W q v).1 := by
  cases closed with
  | true =>
    rw [inv_push_closed h v]
    exact ⟨u, vs, h⟩
  | false =>
    rcases Nat.lt_or_ge u (t + cap) with hu | hu
    · exact ⟨u + 1, vs ++ [v], (inv_push_ok h v hu).2⟩
    · have hue : u = t + cap := by
        have := h.hfull
        omega
      rw [(inv_push_full h v hue).1]
      exact ⟨u, vs, h⟩

theorem inv_pop_any {W cap t u : Nat} {T : Type} {vs : List T} {closed : Bool}
    {q : Queue T} (h : QueueInv W cap t u vs closed q) :
    ∃ t' vs', QueueInv W cap t' u vs' closed (Queue.pop W q).1 := by
  rcases Nat.lt_or_ge t u with ht | ht
  · exact ⟨t + 1, vs.tail, (inv_pop_ok h ht).2.2⟩
  · have hte : t = u := by
      have := h.htu
      omega
    subst hte
    rw [inv_pop_empty h]
    exact ⟨t, vs, h⟩

theorem reachable_inv {W : Nat} {T : Type} {q : Queue T} (hr : Reachable W q)
    (hW : 1 ≤ W) :
    ∃ cap t u vs closed, QueueInv W cap t u vs closed q := by
  induction hr with
  | init cap q hnew => exact ⟨cap, 0, 0, [], false, inv_new hW hnew⟩
  | push q v _ ih =>
    obtain ⟨cap, t, u, vs, closed, h⟩ := ih
    obtain ⟨u', vs', h'⟩ := inv_push_any h v
    exact ⟨cap, t, u', vs', closed, h'⟩
  | pop q _ ih =>
    obtain ⟨cap, t, u, vs, closed, h⟩ := ih
    obtain ⟨t', vs', h'⟩ := inv_pop_any h
    exact ⟨cap, t', u, vs', closed, h'⟩
  | close q _ ih =>
    obtain ⟨cap, t, u, vs, closed, h⟩ := ih
    exact ⟨cap, t, u, vs, true, inv_close h⟩

/-! Further helper lemmas used by the claim theorems. -/

theorem posOf_ne_top {W cap : Nat} (hW : 1 ≤ W) (hcap1 : 1 ≤ cap)
    (hcapW : cap ≤ 2 ^ (W - 1)) (k : Nat) : posOf W cap k ≠ 2 ^ W - 1 := by
  have hMW : np2exp cap + 1 ≤ W := np2_succ_le hW hcapW
  have hpmod := posOf_mod hcap1 hMW k
  have hcapM : cap ≤ 2 ^ np2exp cap := le_np2 cap
  have hMM : (2 : Nat) ^ np2exp cap < 2 ^ (np2exp cap + 1) :=
    Nat.pow_lt_pow_right (by omega) (Nat.lt_succ_self _)
  have hkcap : k % cap < cap := Nat.mod_lt _ hcap1
  intro h
  rw [h, two_pow_sub_one_mod hMW] at hpmod
  omega

theorem pop_enqueue_eq {W : Nat} {T : Type} (q : Queue T) :
    (Queue.pop W q).1.enqueue_pos = q.enqueue_pos := by
  simp only [Queue.pop]
  split
  · rfl
  · split
    · rfl
    · split <;> rfl

theorem push_result_cases {W : Nat} {T : Type} (q : Queue T) (v : T) :
    (∃ q', Queue.push W q v = (q', .ok)) ∨
    (Queue.push W q v = (q, .err (.Full v))) ∨
    (Queue.push W q v = (q, .err (.Closed v))) ∨
    (Queue.push W q v = (q, .retry)) ∨
    (Queue.push W q v = (q, .oob)) := by
  simp only [Queue.push]
  split
  · right; right; left; rfl
  · split
    · right; right; right; right; rfl
    · split
      · left; exact ⟨_, rfl⟩
      · split
        · right; left; rfl
        · right; right; right; left; rfl

theorem push_err_cases {W : Nat} {T : Type} {q : Queue T} {v : T}
    {e : PushError T} (h : (Queue.push W q v).2 = .err e) :
    (Queue.push W q v).1 = q ∧ (e = .Full v ∨ e = .Closed v) := by
  rcases push_result_cases (W := W) q v with ⟨q', hc⟩ | hc | hc | hc | hc <;>
    rw [hc] at h ⊢
  · exact absurd h (by simp)
  · simp only [PushRes.err.injEq] at h
    exact ⟨rfl, Or.inl h.symm⟩
  · simp only [PushRes.err.injEq] at h
    exact ⟨rfl, Or.inr h.symm⟩
  · exact absurd h (by simp)
  · exact absurd h (by simp)

theorem pop_result_cases {W : Nat} {T : Type} (q : Queue T) :
    (∃ q' w, Queue.pop W q = (q', .ok w)) ∨
    (Queue.pop W q = (q, .err .Empty)) ∨
    (Queue.pop W q = (q, .err .Closed)) ∨
    (Queue.pop W q = (q, .oob)) := by
  simp only [Queue.pop]
  split
  · right; right; right; rfl
  · split
    · left; exact ⟨_, _, rfl⟩
    · split
      · right; right; left; rfl
      · right; left; rfl

theorem pop_err_state {W : Nat} {T : Type} {q : Queue T} {e : PopError}
    (h : (Queue.pop W q).2 = .err e) : (Queue.pop W q).1 = q := by
  rcases pop_result_cases (W := W) q with ⟨q', w, hc⟩ | hc | hc | hc <;>
    rw [hc] at h
  · exact absurd h (by simp)
  · rw [hc]
  · rw [hc]
  · exact absurd h (by simp)

theorem lor_land_of_disjoint {x y mask : Nat} (h : mask &&& y = 0) :
    (x ||| y) &&& mask = x &&& mask := by
  apply Nat.eq_of_testBit_eq
  intro i
  have hby : mask.testBit i = true → y.testBit i = false := by
    intro hm
    by_contra hy
    have hy' : y.testBit i = true := by
      revert hy
      cases y.testBit i <;> simp
    have hand : (mask &&& y).testBit i = true := by
      rw [Nat.testBit_and, hm, hy']
      rfl
    rw [h] at hand
    simp at hand
  rw [Nat.testBit_and, Nat.testBit_and, Nat.testBit_or]
  cases hm : mask.testBit i
  · simp
  · rw [hby hm]
    simp

theorem inv_is_closed {W cap t u : Nat} {T : Type} {vs : List T} {q : Queue T}
    (h : QueueInv W cap t u vs true q) : q.is_closed = true := by
  unfold Queue.is_closed
  rw [h.he, h.hcm, if_pos rfl, lor_land_self]
  have := Nat.two_pow_pos (np2exp cap)
  simp only [bne_iff_ne, ne_eq]
  omega

theorem sendLoop_msg {W : Nat} {T : Type} (env : Nat → Queue T → Queue T) :
    ∀ fuel k (q : Queue T) (m : T) (q' : Queue T) (mr : T),
      Sender.sendLoop W env fuel k q m = some (q', some mr) → mr = m := by
  intro fuel
  induction fuel with
  | zero =>
    intro k q m q' mr h
    exact absurd h (by simp [Sender.sendLoop])
  | succ fuel ih =>
    intro k q m q' mr h
    unfold Sender.sendLoop at h
    rcases hp : Queue.push W q m with ⟨qq, rr⟩
    rw [hp] at h
    cases rr with
    | ok => simp at h
    | err e =>
      cases e with
      | Full mm =>
        have hmm : mm = m := by
          rcases (push_err_cases (W := W) (q := q) (v := m) (e := .Full mm)
            (by rw [hp])).2 with h1 | h1
          · exact PushError.Full.inj h1
          · exact absurd h1 (by simp)
        have hr : mr = mm := ih _ _ _ _ _ h
        exact hr.trans hmm
      | Closed mm =>
        have hmm : mm = m := by
          rcases (push_err_cases (W := W) (q := q) (v := m) (e := .Closed mm)
            (by rw [hp])).2 with h1 | h1
          · exact absurd h1 (by simp)
          · exact PushError.Closed.inj h1
        simp only [Option.some.injEq, Prod.mk.injEq] at h
        obtain ⟨_, h2⟩ := h
        exact h2.symm.trans hmm
    | retry => exact ih _ _ _ _ _ h
    | oob => simp at h

/-- C1: for every queue state in which the closed flag of the enqueue
position is set — as it is after any call to `Queue.close` — `Queue.push v`
returns the `Closed` error carrying exactly `v` and leaves the state
unchanged, and `Sender.try_send v` correspondingly returns
`TrySendError.Closed v`; the flag survives `pop` and further `close`
operations, so this holds for every subsequent push after close. -/
theorem push_after_close_returns_closed {W : Nat} {T : Type} (q : Queue T)
    (v : T) (h : q.enqueue_pos &&& q.closed_channel_mask ≠ 0) :
    Queue.push W q v = (q, .err (.Closed v)) ∧
    (∀ s : Inner T, s.queue = q →
      Sender.try_send W s v = (s, .err (.Closed v))) ∧
    (Queue.pop W q).1.enqueue_pos &&& q.closed_channel_mask ≠ 0 ∧
    (Queue.close q).enqueue_pos &&& q.closed_channel_mask ≠ 0 := by
  have h1 : Queue.push W q v = (q, .err (.Closed v)) := push_closed_eq h
  refine ⟨h1, ?_, ?_, ?_⟩
  · intro s hs
    subst hs
    unfold Sender.try_send
    rw [h1]
  · rw [pop_enqueue_eq]
    exact h
  · have hcm0 : q.closed_channel_mask ≠ 0 := by
      intro h0
      rw [h0, Nat.and_zero] at h
      exact h rfl
    show (q.enqueue_pos ||| q.closed_channel_mask) &&& q.closed_channel_mask ≠ 0
    rw [lor_land_self]
    exact hcm0

/-- C1 witness: the concrete closed queue `exQC` rejects a push of 7 with
`Closed 7`, through both the queue and the sender facade. -/
theorem push_after_close_returns_closed_witness :
    Queue.push 4 exQC 7 = (exQC, .err (.Closed 7)) ∧
    Sender.try_send 4 exInnerC 7 = (exInnerC, .err (.Closed 7)) :=
  ⟨(push_after_close_returns_closed exQC 7 (by decide)).1,
   (push_after_close_returns_closed exQC 7 (by decide)).2.1 exInnerC rfl⟩

/-- C3: whenever `Queue.pop` reads a slot stamp equal to the dequeue
position it returns an error and never a value: `Closed` exactly when the
enqueue position equals `dequeue_pos ||| closed_channel_mask`, `Empty`
otherwise, with the state unchanged; `Receiver.try_recv` maps these to
`TryRecvError.Closed` and `TryRecvError.Empty` respectively. -/
theorem pop_empty_spec {W : Nat} {T : Type} (q : Queue T) (slot : Slot T)
    (hget : q.buffer[q.dequeue_pos &&& q.right_mask]? = some slot)
    (heq : slot.stamp = q.dequeue_pos) :
    Queue.pop W q =
      (q, .err (if q.enqueue_pos = q.dequeue_pos ||| q.closed_channel_mask
        then .Closed else .Empty)) ∧
    ∀ s : Inner T, s.queue = q →
      Receiver.try_recv W s =
        (s, .err (if q.enqueue_pos = q.dequeue_pos ||| q.closed_channel_mask
          then TryRecvError.Closed else TryRecvError.Empty)) := by
  have hpop := pop_eq_of_get (W := W) hget
  rw [if_neg (fun hc => hc heq.symm)] at hpop
  by_cases hc : q.enqueue_pos = q.dequeue_pos ||| q.closed_channel_mask
  · rw [if_pos hc] at hpop
    refine ⟨by rw [hpop, if_pos hc], ?_⟩
    intro s hs
    subst hs
    unfold Receiver.try_recv
    rw [hpop, if_pos hc]
  · rw [if_neg hc] at hpop
    refine ⟨by rw [hpop, if_neg hc], ?_⟩
    intro s hs
    subst hs
    unfold Receiver.try_recv
    rw [hpop, if_neg hc]

/-- C3 witness: on the fresh (open, empty) queue `exQ0`, pop yields
`Empty`, and `try_recv` yields `TryRecvError.Empty`. -/
theorem pop_empty_spec_witness :
    Queue.pop 4 exQ0 = (exQ0, .err .Empty) ∧
    Receiver.try_recv 4 exInner0 = (exInner0, .err .Empty) := by
  have h := pop_empty_spec (W := 4) exQ0 { stamp := 0, value := none } rfl rfl
  exact ⟨h.1, h.2 exInner0 rfl⟩

/-- C4: for a `W`-bit position `p` with a clear closed-flag bit,
`next_queue_pos p` is `p + 1` (wrapping) when the index field of `p + 1` is
strictly less than the capacity, and otherwise zeroes the index and flag
fields and advances the sequence counter by one increment,
`(p &&& !right_mask) + (right_mask + 1)`, modulo `2 ^ W`. -/
theorem next_queue_pos_spec {W : Nat} {T : Type} (q : Queue T) (p : Nat)
    (hflag : p &&& q.closed_channel_mask = 0) :
    ((p + 1) % 2 ^ W &&& q.right_mask < q.buffer.length →
      Queue.next_queue_pos W q p = (p + 1) % 2 ^ W) ∧
    (¬ ((p + 1) % 2 ^ W &&& q.right_mask < q.buffer.length) →
      Queue.next_queue_pos W q p =
        ((p &&& ((2 ^ W - 1) ^^^ q.right_mask)) + (q.right_mask + 1)) % 2 ^ W) := by
  constructor
  · intro hidx
    simp only [Queue.next_queue_pos]
    rw [if_pos hidx]
  · intro hidx
    simp only [Queue.next_queue_pos]
    rw [if_neg hidx, Nat.add_mod_mod]

/-- C4 witness: on the capacity-2 queue `exQ0` (4-bit positions), position
0 advances to 1, and position 1 wraps, zeroing the index and advancing the
sequence counter. -/
theorem next_queue_pos_spec_witness :
    Queue.next_queue_pos 4 exQ0 0 = (0 + 1) % 2 ^ 4 ∧
    Queue.next_queue_pos 4 exQ0 1 =
      ((1 &&& ((2 ^ 4 - 1) ^^^ exQ0.right_mask)) + (exQ0.right_mask + 1)) % 2 ^ 4 :=
  ⟨(next_queue_pos_spec (W := 4) exQ0 0 (by decide)).1 (by decide),
   (next_queue_pos_spec (W := 4) exQ0 1 (by decide)).2 (by decide)⟩

/-- C8: `Queue.close` is idempotent; its only effect is to OR the closed
mask into the enqueue position, leaving the dequeue position, buffer
(stamps and values) and masks unchanged, and leaving every enqueue-position
bit outside the closed mask unchanged; after a close, `Queue.is_closed`
(and hence `Sender.is_closed`) returns true. -/
theorem close_idempotent_spec {T : Type} (q : Queue T) :
    Queue.close (Queue.close q) = Queue.close q ∧
    (Queue.close q).enqueue_pos = q.enqueue_pos ||| q.closed_channel_mask ∧
    (Queue.close q).dequeue_pos = q.dequeue_pos ∧
    (Queue.close q).buffer = q.buffer ∧
    (Queue.close q).right_mask = q.right_mask ∧
    (Queue.close q).closed_channel_mask = q.closed_channel_mask ∧
    (∀ mask, mask &&& q.closed_channel_mask = 0 →
      (Queue.close q).enqueue_pos &&& mask = q.enqueue_pos &&& mask) ∧
    (q.closed_channel_mask ≠ 0 →
      Queue.is_closed (Queue.close q) = true ∧
      ∀ s : Inner T, s.queue = Queue.close q → Sender.is_closed s = true) := by
  refine ⟨?_, rfl, rfl, rfl, rfl, rfl, ?_, ?_⟩
  · show ({ q with enqueue_pos :=
      (q.enqueue_pos ||| q.closed_channel_mask) ||| q.closed_channel_mask } : Queue T) = _
    rw [Nat.or_assoc, Nat.or_self]
    rfl
  · intro mask hm
    show (q.enqueue_pos ||| q.closed_channel_mask) &&& mask = _
    exact lor_land_of_disjoint hm
  · intro hcm
    have hicl : Queue.is_closed (Queue.close q) = true := by
      show ((q.enqueue_pos ||| q.closed_channel_mask) &&&
        q.closed_channel_mask != 0) = true
      rw [lor_land_self]
      simp only [bne_iff_ne, ne_eq]
      exact hcm
    refine ⟨hicl, ?_⟩
    intro s hs
    show s.queue.is_closed = true
    rw [hs]
    exact hicl

/-- C8 witness: closing the concrete queue `exQ0` twice equals closing it
once, the closed flag is then observed by `is_closed`, and bit 0 of the
enqueue position is untouched. -/
theorem close_idempotent_spec_witness :
    Queue.close (Queue.close exQ0) = Queue.close exQ0 ∧
    Queue.is_closed (Queue.close exQ0) = true ∧
    (Queue.close exQ0).enqueue_pos &&& 1 = exQ0.enqueue_pos &&& 1 := by
  have h := close_idempotent_spec exQ0
  exact ⟨h.1, (h.2.2.2.2.2.2.2 (by decide)).1, h.2.2.2.2.2.2.1 1 (by decide)⟩

/-- C10: failing queue operations are non-mutating: a push that returns an
error leaves the queue exactly as it was and the error returns ownership
of exactly the pushed value; a pop that returns `Empty` or `Closed` leaves
the queue unchanged. -/
theorem errors_nonmutating {W : Nat} {T : Type} (q : Queue T) (v : T) :
    (∀ e, (Queue.push W q v).2 = .err e →
      (Queue.push W q v).1 = q ∧ (e = .Full v ∨ e = .Closed v)) ∧
    (∀ e, (Queue.pop W q).2 = .err e → (Queue.pop W q).1 = q) :=
  ⟨fun _ h => push_err_cases h, fun _ h => pop_err_state h⟩

/-- C10 witness: the closed push on `exQC` and the empty pop on `exQ0`
leave their queues untouched, and the push error carries the value 9. -/
theorem errors_nonmutating_witness :
    ((Queue.push 4 exQC 9).1 = exQC ∧
      (PushError.Closed 9 = .Full 9 ∨ PushError.Closed 9 = .Closed 9)) ∧
    (Queue.pop 4 exQ0).1 = exQ0 :=
  ⟨(errors_nonmutating (W := 4) exQC 9).1 (.Closed 9) (by decide),
   (errors_nonmutating (W := 4) exQ0 9).2 .Empty (by decide)⟩

/-- C2: in every reachable queue state in which `Queue.pop` reads a slot
stamp different from the dequeue position, that stamp equals
`dequeue_pos + 1`; pop then advances the dequeue position to
`next_queue_pos`, returns the value previously stored in that slot by the
matching push, and stores the old stamp plus `right_mask` into the slot
stamp — equal, modulo `2 ^ W`, to the dequeue position advanced by one
sequence increment. -/
theorem pop_filled_spec {W : Nat} {T : Type} {q : Queue T} (hr : Reachable W q)
    (hW : 1 ≤ W) (slot : Slot T)
    (hget : q.buffer[q.dequeue_pos &&& q.right_mask]? = some slot)
    (hne : slot.stamp ≠ q.dequeue_pos) :
    slot.stamp = q.dequeue_pos + 1 ∧
    wadd W slot.stamp q.right_mask = (q.dequeue_pos + (q.right_mask + 1)) % 2 ^ W ∧
    ∃ v, slot.value = some v ∧
      Queue.pop W q =
        ({ q with
            dequeue_pos := q.next_queue_pos W q.dequeue_pos,
            buffer := q.buffer.set (q.dequeue_pos &&& q.right_mask)
              { slot with stamp := wadd W slot.stamp q.right_mask } },
          .ok (some v)) := by
  obtain ⟨cap, t, u, vs, closed, hInv⟩ := reachable_inv hr hW
  obtain ⟨hW', hcap1, hcapW, hlen, hcm, hrm, htu, hfull, hvs, hd, he, hfilled,
    hempty⟩ := hInv
  have hMW : np2exp cap + 1 ≤ W := np2_succ_le hW' hcapW
  have hidx : q.dequeue_pos &&& q.right_mask = t % cap := by
    rw [hd, hrm]
    exact posOf_land_rm hcap1 hMW t
  have hget2 := hget
  rw [hidx] at hget2
  rcases Nat.lt_or_ge t u with ht | ht
  · obtain ⟨slot', hg, hs, hv⟩ := hfilled t (Nat.le_refl t) ht
    have hse : slot = slot' := Option.some.inj (hget2.symm.trans hg)
    subst hse
    have hstamp1 : slot.stamp = q.dequeue_pos + 1 := by
      rw [hs, hd]
      apply Nat.mod_eq_of_lt
      have h1 := posOf_lt (W := W) cap t
      have h2 := posOf_ne_top hW' hcap1 hcapW (k := t)
      omega
    refine ⟨hstamp1, ?_, ?_⟩
    · rw [hstamp1]
      show (q.dequeue_pos + 1 + q.right_mask) % 2 ^ W = _
      congr 1
      omega
    · rw [Nat.sub_self] at hv
      have hvsome : ∃ v, slot.value = some v := by
        rw [hv]
        cases vs with
        | nil =>
          rw [List.length_nil] at hvs
          omega
        | cons a l => exact ⟨a, by simp⟩
      obtain ⟨v, hvv⟩ := hvsome
      refine ⟨v, hvv, ?_⟩
      have hpop := pop_eq_of_get (W := W) hget
      rw [if_pos (fun hc => hne hc.symm)] at hpop
      rw [hpop, hvv]
  · obtain ⟨slot', hg, hs⟩ := hempty t (by omega) (by omega)
    have hse : slot = slot' := Option.some.inj (hget2.symm.trans hg)
    exfalso
    apply hne
    rw [hse, hs, hd]

/-- C2 witness: the reachable one-element queue `exQ1` has dequeue slot
stamp 1 = dequeue position + 1, and pop advances the position, returns the
stored value 5 and restamps the slot. -/
theorem pop_filled_spec_witness :
    ({ stamp := 1, value := some 5 } : Slot Nat).stamp = exQ1.dequeue_pos + 1 ∧
    wadd 4 ({ stamp := 1, value := some 5 } : Slot Nat).stamp exQ1.right_mask =
      (exQ1.dequeue_pos + (exQ1.right_mask + 1)) % 2 ^ 4 ∧
    ∃ v, ({ stamp := 1, value := some 5 } : Slot Nat).value = some v ∧
      Queue.pop 4 exQ1 =
        ({ exQ1 with
            dequeue_pos := Queue.next_queue_pos 4 exQ1 exQ1.dequeue_pos,
            buffer := exQ1.buffer.set (exQ1.dequeue_pos &&& exQ1.right_mask)
              { ({ stamp := 1, value := some 5 } : Slot Nat) with
                stamp := wadd 4 ({ stamp := 1, value := some 5 } : Slot Nat).stamp
                  exQ1.right_mask } },
          .ok (some v)) :=
  pop_filled_spec
    (Reachable.push (W := 4) exQ0 5 (Reachable.init (W := 4) 2 exQ0 (by decide)))
    (by decide) { stamp := 1, value := some 5 } (by decide) (by decide)

/-- C5: `channel capacity` panics — returns `none` — exactly when the
capacity is 0 or exceeds `2 ^ (W - 1)`; for every capacity in range it
returns a fresh state with one sender, slot `i` stamped `i` for every
`i < capacity`, both positions 0, `closed_channel_mask` the next power of
two of the capacity and `right_mask = (closed_channel_mask <<< 1) - 1`
wrapping. -/
theorem channel_spec (T : Type) (W capacity : Nat) :
    (channel T W capacity = none ↔ capacity = 0 ∨ 2 ^ (W - 1) < capacity) ∧
    ∀ inner : Inner T, channel T W capacity = some inner →
      inner.sender_count = 1 ∧
      inner.queue.enqueue_pos = 0 ∧
      inner.queue.dequeue_pos = 0 ∧
      inner.queue.buffer.length = capacity ∧
      (∀ i, i < capacity →
        inner.queue.buffer[i]? = some { stamp := i, value := (none : Option T) }) ∧
      inner.queue.closed_channel_mask = next_power_of_two capacity ∧
      inner.queue.right_mask =
        wsub W ((next_power_of_two capacity <<< 1) % 2 ^ W) 1 := by
  have hs : (1 : Nat) <<< (W - 1) = 2 ^ (W - 1) := by
    rw [Nat.shiftLeft_eq, Nat.one_mul]
  constructor
  · unfold channel Queue.new
    by_cases hcond : capacity ≥ 1 ∧ capacity ≤ 1 <<< (W - 1)
    · rw [if_pos hcond, Option.map_some']
      rw [hs] at hcond
      constructor
      · intro hno
        exact absurd hno (by simp)
      · intro hor
        exfalso
        omega
    · rw [if_neg hcond, Option.map_none']
      rw [hs] at hcond
      constructor
      · intro _
        omega
      · intro _
        rfl
  · intro inner hchan
    unfold channel Queue.new at hchan
    split at hchan
    case isFalse => exact absurd hchan (by simp)
    case isTrue hcond =>
      rw [Option.map_some', Option.some.injEq] at hchan
      subst hchan
      refine ⟨rfl, rfl, rfl, by simp, ?_, rfl, rfl⟩
      intro i hi
      show (List.map _ (List.range capacity))[i]? = _
      rw [List.getElem?_map, List.getElem?_range hi]
      rfl

/-- C5 witness: capacity 0 panics; the capacity-3 channel over 8-bit
positions is `exInner3`, with one sender, three linearly stamped slots and
the expected masks. -/
theorem channel_spec_witness :
    channel Nat 8 0 = none ∧
    exInner3.sender_count = 1 ∧
    exInner3.queue.buffer.length = 3 ∧
    exInner3.queue.buffer[2]? = some { stamp := 2, value := (none : Option Nat) } ∧
    exInner3.queue.closed_channel_mask = next_power_of_two 3 ∧
    exInner3.queue.right_mask = wsub 8 ((next_power_of_two 3 <<< 1) % 2 ^ 8) 1 := by
  have h0 := (channel_spec Nat 8 0).1
  have h3 := (channel_spec Nat 8 3).2 exInner3 (by rfl)
  exact ⟨h0.mpr (Or.inl rfl), h3.1, h3.2.2.2.1, h3.2.2.2.2.1 2 (by decide),
    h3.2.2.2.2.2.1, h3.2.2.2.2.2.2⟩

/-- C6: dropping a `Sender` decrements `sender_count`; exactly when the
previous count was 1 and the queue is not already closed it closes the
queue and notifies the receiver signal; a non-last drop changes nothing
but the count; and after the last sender is dropped the channel is closed,
so a pop on an empty queue returns `Closed`. -/
theorem sender_drop_spec {W : Nat} {T : Type} (s : Inner T) :
    (Sender.drop W s).sender_count = wsub W s.sender_count 1 ∧
    (s.sender_count = 1 → s.queue.is_closed = false →
      (Sender.drop W s).queue = s.queue.close ∧
      (Sender.drop W s).receiver_signal = s.receiver_signal + 1) ∧
    (¬ (s.sender_count = 1 ∧ s.queue.is_closed = false) →
      Sender.drop W s = { s with sender_count := wsub W s.sender_count 1 }) ∧
    (∀ cap t (vs : List T) closed, QueueInv W cap t t vs closed s.queue →
      s.sender_count = 1 →
      (Sender.drop W s).queue.is_closed = true ∧
      (Queue.pop W (Sender.drop W s).queue).2 = .err .Closed) := by
  refine ⟨?_, ?_, ?_, ?_⟩
  · simp only [Sender.drop]
    split <;> rfl
  · intro h1 h2
    have hcond : s.sender_count = 1 ∧
        ({ s with sender_count := wsub W s.sender_count 1 } : Inner T).queue.is_closed
          = false := ⟨h1, h2⟩
    simp only [Sender.drop]
    rw [if_pos hcond]
    exact ⟨rfl, rfl⟩
  · intro hn
    simp only [Sender.drop]
    rw [if_neg (fun hc => hn ⟨hc.1, hc.2⟩)]
  · intro cap t vs closed hInv h1
    by_cases h2 : s.queue.is_closed = false
    · have hq : (Sender.drop W s).queue = s.queue.close := by
        simp only [Sender.drop]
        rw [if_pos (⟨h1, h2⟩ : s.sender_count = 1 ∧
          ({ s with sender_count := wsub W s.sender_count 1 } : Inner T).queue.is_closed
            = false)]
      rw [hq]
      have hI2 := inv_close hInv
      refine ⟨inv_is_closed hI2, ?_⟩
      rw [inv_pop_empty hI2]
      rfl
    · have h2' : s.queue.is_closed = true := by
        revert h2
        cases s.queue.is_closed <;> simp
      have hq : (Sender.drop W s).queue = s.queue := by
        simp only [Sender.drop]
        rw [if_neg (fun hc => h2 hc.2)]
      rw [hq]
      have hct : closed = true := by
        cases closed with
        | false =>
          exfalso
          have hopen := flag_open hInv
          unfold Queue.is_closed at h2'
          rw [hopen] at h2'
          simp at h2'
        | true => rfl
      subst hct
      exact ⟨h2', by rw [inv_pop_empty hInv]; rfl⟩

/-- C6 witness: dropping the only sender of the fresh channel `exInner0`
takes the count to 0, closes the queue and makes the empty pop return
`Closed`. -/
theorem sender_drop_spec_witness :
    (Sender.drop 4 exInner0).sender_count = wsub 4 exInner0.sender_count 1 ∧
    (Sender.drop 4 exInner0).queue = exInner0.queue.close ∧
    (Sender.drop 4 exInner0).queue.is_closed = true ∧
    (Queue.pop 4 (Sender.drop 4 exInner0).queue).2 = .err .Closed := by
  have h := sender_drop_spec (W := 4) exInner0
  have hInv : QueueInv 4 2 0 0 ([] : List Nat) false exInner0.queue :=
    inv_new (by decide) (by decide)
  exact ⟨h.1, (h.2.1 rfl (by decide)).1, (h.2.2.2 2 0 [] false hInv rfl).1,
    (h.2.2.2 2 0 [] false hInv rfl).2⟩

/-- C7: every failing send returns the caller value intact: a failing
`try_send v` yields `Full v` or `Closed v` carrying exactly `v`, and a
completed `Sender.send v` that fails yields `SendError v` carrying exactly
`v`; no accepted message is silently dropped. -/
theorem send_failure_preserves_value {W : Nat} {T : Type} :
    (∀ (s : Inner T) (v : T) (s' : Inner T) (e : TrySendError T),
      Sender.try_send W s v = (s', .err e) → (e = .Full v ∨ e = .Closed v)) ∧
    (∀ (env : Nat → Queue T → Queue T) (fuel : Nat) (q q' : Queue T) (v : T)
      (err : SendError T),
      Sender.send W env fuel q v = some (q', Except.error err) → err.v = v) := by
  constructor
  · intro s v s' e h
    unfold Sender.try_send at h
    rcases hp : Queue.push W s.queue v with ⟨qq, rr⟩
    rw [hp] at h
    cases rr with
    | ok => simp at h
    | err e2 =>
      cases e2 with
      | Full m =>
        have hm : m = v := by
          rcases (push_err_cases (W := W) (q := s.queue) (v := v) (e := .Full m)
            (by rw [hp])).2 with hx | hx
          · exact PushError.Full.inj hx
          · exact absurd hx (by simp)
        simp only [Prod.mk.injEq, TrySendRes.err.injEq] at h
        left
        rw [← h.2, hm]
      | Closed m =>
        have hm : m = v := by
          rcases (push_err_cases (W := W) (q := s.queue) (v := v) (e := .Closed m)
            (by rw [hp])).2 with hx | hx
          · exact absurd hx (by simp)
          · exact PushError.Closed.inj hx
        simp only [Prod.mk.injEq, TrySendRes.err.injEq] at h
        right
        rw [← h.2, hm]
    | retry => simp at h
    | oob => simp at h
  · intro env fuel q q' v err h
    unfold Sender.send at h
    rcases hl : Sender.sendLoop W env fuel 0 q v with _ | ⟨q2, msg⟩
    · rw [hl] at h
      exact absurd h (by simp)
    · rw [hl] at h
      cases msg with
      | none => simp at h
      | some m =>
        have hm := sendLoop_msg env fuel 0 q v q2 m hl
        simp only [Option.map_some', Option.some.injEq, Prod.mk.injEq] at h
        obtain ⟨_, h2⟩ := h
        rw [← Except.error.inj h2]
        exact hm

/-- C7 witness: on the closed queue, `try_send 3` fails with `Closed 3`
and a one-evaluation `send 3` completes with `SendError` carrying 3. -/
theorem send_failure_preserves_value_witness :
    ((TrySendError.Closed 3 : TrySendError Nat) = .Full 3 ∨
      (TrySendError.Closed 3 : TrySendError Nat) = .Closed 3) ∧
    (SendError.mk 3 : SendError Nat).v = 3 :=
  ⟨(send_failure_preserves_value (W := 4) (T := Nat)).1 exInnerC 3 exInnerC
      (.Closed 3) (by rfl),
   (send_failure_preserves_value (W := 4) (T := Nat)).2 (fun _ q => q) 1 exQC exQC
      3 ⟨3⟩ (by rfl)⟩

/-- C9: in every reachable state the buffer indices used for slot access
are in bounds — the dequeue index always, the enqueue index whenever the
closed flag is clear — `next_queue_pos` maps any in-range open position to
an in-range open position, and neither push nor pop can perform an
out-of-bounds access. -/
theorem reachable_bounds {W : Nat} {T : Type} {q : Queue T}
    (hr : Reachable W q) (hW : 1 ≤ W) :
    q.dequeue_pos &&& q.right_mask < q.buffer.length ∧
    (q.enqueue_pos &&& q.closed_channel_mask = 0 →
      q.enqueue_pos &&& q.right_mask < q.buffer.length) ∧
    (∀ p, p < 2 ^ W → p &&& q.closed_channel_mask = 0 →
      p &&& q.right_mask < q.buffer.length →
      Queue.next_queue_pos W q p &&& q.closed_channel_mask = 0 ∧
      Queue.next_queue_pos W q p &&& q.right_mask < q.buffer.length) ∧
    (∀ v : T, (Queue.push W q v).2 ≠ .oob) ∧
    (Queue.pop W q).2 ≠ .oob := by
  obtain ⟨cap, t, u, vs, closed, hInv⟩ := reachable_inv hr hW
  have hW' := hInv.hW
  have hcap1 := hInv.hcap1
  have hcapW := hInv.hcapW
  have hlen := hInv.hlen
  have hcm := hInv.hcm
  have hrm := hInv.hrm
  have hMW : np2exp cap + 1 ≤ W := np2_succ_le hW' hcapW
  refine ⟨?_, ?_, ?_, ?_, ?_⟩
  · rw [hInv.hd, hrm, posOf_land_rm hcap1 hMW, hlen]
    exact Nat.mod_lt _ hcap1
  · intro hflag
    cases closed with
    | true =>
      exfalso
      rw [hInv.he, hcm, if_pos rfl, lor_land_self] at hflag
      have := Nat.two_pow_pos (np2exp cap)
      omega
    | false =>
      rw [enqueue_open hInv, hrm, posOf_land_rm hcap1 hMW, hlen]
      exact Nat.mod_lt _ hcap1
  · intro p hp hpflag hpidx
    have hb : p % 2 ^ (np2exp cap + 1) < cap := by
      rw [hrm, Nat.and_pow_two_sub_one_eq_mod, hlen] at hpidx
      exact hpidx
    have hkd : (cap * (p / 2 ^ (np2exp cap + 1)) + p % 2 ^ (np2exp cap + 1)) / cap
        = p / 2 ^ (np2exp cap + 1) := by
      rw [Nat.mul_add_div (by omega), Nat.div_eq_of_lt hb, Nat.add_zero]
    have hkm : (cap * (p / 2 ^ (np2exp cap + 1)) + p % 2 ^ (np2exp cap + 1)) % cap
        = p % 2 ^ (np2exp cap + 1) := by
      rw [Nat.mul_add_mod]
      exact Nat.mod_eq_of_lt hb
    have hpk : posOf W cap
        (cap * (p / 2 ^ (np2exp cap + 1)) + p % 2 ^ (np2exp cap + 1)) = p := by
      unfold posOf
      rw [hkd, hkm, Nat.div_add_mod]
      exact Nat.mod_eq_of_lt hp
    rw [← hpk, next_queue_pos_posOf q hW' hcap1 hcapW hlen hrm]
    constructor
    · rw [hcm]
      exact posOf_land_cm hcap1 hMW _
    · rw [hrm, posOf_land_rm hcap1 hMW, hlen]
      exact Nat.mod_lt _ hcap1
  · intro v
    cases closed with
    | true =>
      rw [inv_push_closed hInv v]
      simp
    | false =>
      rcases Nat.lt_or_ge u (t + cap) with hu | hu
      · have := (inv_push_ok hInv v hu).1
        rw [this]
        simp
      · have hue : u = t + cap := by
          have := hInv.hfull
          omega
        rcases (inv_push_full hInv v hue).2 with hc | hc <;> rw [hc] <;> simp
  · rcases Nat.lt_or_ge t u with ht | ht
    · have := (inv_pop_ok hInv ht).1
      rw [this]
      simp
    · have hte : t = u := by
        have := hInv.htu
        omega
      subst hte
      rw [inv_pop_empty hInv]
      simp

/-- C9 witness: the reachable one-element queue `exQ1` has in-bounds
indices, its advanced positions stay in range, and push and pop do not go
out of bounds. -/
theorem reachable_bounds_witness :
    exQ1.dequeue_pos &&& exQ1.right_mask < exQ1.buffer.length ∧
    (exQ1.enqueue_pos &&& exQ1.right_mask < exQ1.buffer.length) ∧
    (Queue.next_queue_pos 4 exQ1 1 &&& exQ1.closed_channel_mask = 0 ∧
      Queue.next_queue_pos 4 exQ1 1 &&& exQ1.right_mask < exQ1.buffer.length) ∧
    (Queue.push 4 exQ1 6).2 ≠ .oob ∧
    (Queue.pop 4 exQ1).2 ≠ .oob := by
  have h := reachable_bounds
    (Reachable.push (W := 4) exQ0 5 (Reachable.init (W := 4) 2 exQ0 (by decide)))
    (by decide)
  exact ⟨h.1, h.2.1 (by decide), h.2.2.1 1 (by decide) (by decide) (by decide),
    h.2.2.2.1 6, h.2.2.2.2⟩

end Tachyonix
